import Mathlib

/-!
Verification of the Dots-and-Boxes engine in `src/game.js` (repository boxN).

Shallow embedding notes:
* JS numbers used for grid coordinates are non-negative integers in every
  reachable use; they are modelled as `ℕ` (every `- 1` in the source occurs
  under a positivity guard, where ℕ truncated subtraction agrees with JS).
* The JS `Set` of drawn-edge strings `"r1,c1:r2,c2"` is modelled as a
  `Finset` of 4-tuples of naturals: decimal rendering of the four numbers
  with `,`/`:` delimiters is injective, so the string set and the tuple set
  are in bijection.
* The JS `Map` from box strings `"r,c"` to player index is modelled as an
  insertion-ordered association list with JS `Map.set` semantics.
* The per-player scores object (keys `0..players.length-1`) is a `List ℕ`
  indexed by player.
* Pixel coordinates of mouse events are modelled as `ℚ` (JS doubles at the
  values involved behave as exact arithmetic is irrelevant to the claims;
  `Math.round`/`Math.floor` are embedded exactly).
* DOM / canvas rendering calls (`drawBoard`, `updateUI`, modal display) are
  pure output and are omitted; only the game-state mutations are modelled.
-/

namespace BoxN

/-- The fields of the `config` object in `game.js` that the engine reads
(dot rows, dot columns, pixel geometry).  The player roster lives on the
`state` object in the source but is never mutated, so it is carried here as
configuration as well.  Rendering-only fields (colors, dotRadius, lineWidth)
are omitted. -/
structure Config where
  rows : ℕ
  cols : ℕ
  players : List String
  cellSize : ℚ
  margin : ℚ
  gridPaddingTop : ℚ
deriving DecidableEq

/-- The literal `config` object of `game.js` together with the initial
`state.players = ['A', 'B']`. -/
def config : Config :=
  { rows := 4, cols := 6, players := ["A", "B"],
    cellSize := 90, margin := 20, gridPaddingTop := 30 }

/-- Canonical content of an edge string `"r1,c1:r2,c2"`. -/
abbrev EdgeKey := ℕ × ℕ × ℕ × ℕ

/-- The edge records returned by `findNearestEdge`. -/
structure Edge where
  r1 : ℕ
  c1 : ℕ
  r2 : ℕ
  c2 : ℕ
  isHorizontal : Bool
deriving DecidableEq

/-- The string key `` `${edge.r1},${edge.c1}:${edge.r2},${edge.c2}` ``,
as its tuple of components. -/
def edgeKey (e : Edge) : EdgeKey := (e.r1, e.c1, e.r2, e.c2)

/-- The game-state fields of the `state` object that the engine mutates
(`canvas`, `ctx`, `canvasSize`, `boardOffset` are rendering plumbing and
are omitted; `players` is carried in `Config`). -/
structure GameState where
  currentPlayer : ℕ
  scores : List ℕ
  edges : Finset EdgeKey
  boxes : List ((ℕ × ℕ) × ℕ)
  highlightedEdge : Option Edge
  gameOver : Bool
deriving DecidableEq

/-- JS `Map.has` on the boxes map. -/
def mapHas (m : List ((ℕ × ℕ) × ℕ)) (k : ℕ × ℕ) : Bool :=
  m.any (fun p => decide (p.1 = k))

/-- JS `Map.get` on the boxes map. -/
def mapGet (m : List ((ℕ × ℕ) × ℕ)) (k : ℕ × ℕ) : Option ℕ :=
  (m.find? (fun p => decide (p.1 = k))).map (fun p => p.2)

/-- JS `Map.set` on the boxes map: overwrite in place if the key is
present, else append. -/
def mapSet (m : List ((ℕ × ℕ) × ℕ)) (k : ℕ × ℕ) (v : ℕ) :
    List ((ℕ × ℕ) × ℕ) :=
  if mapHas m k then m.map (fun p => if p.1 = k then (k, v) else p)
  else m ++ [(k, v)]

/-- `state.scores[i]++` on the scores object. -/
def bump (sc : List ℕ) (i : ℕ) : List ℕ :=
  sc.set i (sc.getD i 0 + 1)

/-- The state set up by `initGame` (scores `0` for every player index,
together with the initial `state` literal: empty edges and boxes,
`currentPlayer = 0`, `gameOver = false`, no highlight). -/
def initState (cfg : Config) : GameState :=
  { currentPlayer := 0
    scores := List.replicate cfg.players.length 0
    edges := ∅
    boxes := []
    highlightedEdge := none
    gameOver := false }

/-- `initGame` as far as game state is concerned (canvas/event-listener
setup and rendering omitted). -/
def initGame (cfg : Config) : GameState := initState cfg

/-- JS `Math.round` (round half toward +∞). -/
def jsRound (q : ℚ) : ℤ := ⌊q + 1 / 2⌋

/-- `findNearestEdge(x, y)`: pixel-to-edge hit testing.  The board offset
is `(margin, margin + gridPaddingTop)` as computed by `setupCanvas`.
(The source also computes unused locals `cellX`, `cellY`; they are dead
code and omitted.) -/
def findNearestEdge (cfg : Config) (x y : ℚ) : Option Edge :=
  let offX : ℚ := cfg.margin
  let offY : ℚ := cfg.margin + cfg.gridPaddingTop
  let gridX : ℤ := jsRound ((x - offX) / cfg.cellSize)
  let gridY : ℤ := jsRound ((y - offY) / cfg.cellSize)
  if |y - (offY + gridY * cfg.cellSize)| < 15 ∧
      0 ≤ gridX ∧ gridX < (cfg.cols : ℤ) - 1 ∧
      0 ≤ gridY ∧ gridY < (cfg.rows : ℤ) then
    some ⟨gridY.toNat, gridX.toNat, gridY.toNat, gridX.toNat + 1, true⟩
  else if |x - (offX + gridX * cfg.cellSize)| < 15 ∧
      0 ≤ gridY ∧ gridY < (cfg.rows : ℤ) - 1 ∧
      0 ≤ gridX ∧ gridX < (cfg.cols : ℤ) then
    some ⟨gridY.toNat, gridX.toNat, gridY.toNat + 1, gridX.toNat, false⟩
  else none

/-- `checkForCompletedBoxes(edge)`, reading the given drawn-edge set (the
source reads `state.edges` after the new edge has been inserted). -/
def checkForCompletedBoxes (cfg : Config) (e : Edge) (E : Finset EdgeKey) :
    List (ℕ × ℕ) :=
  if e.isHorizontal then
    (if 0 < e.r1 ∧ (e.r1 - 1, e.c1, e.r1 - 1, e.c2) ∈ E ∧
        (e.r1 - 1, e.c1, e.r1, e.c1) ∈ E ∧ (e.r1 - 1, e.c2, e.r1, e.c2) ∈ E
      then [(e.r1 - 1, e.c1)] else []) ++
    (if e.r1 < cfg.rows - 1 ∧ (e.r1 + 1, e.c1, e.r1 + 1, e.c2) ∈ E ∧
        (e.r1, e.c1, e.r1 + 1, e.c1) ∈ E ∧ (e.r1, e.c2, e.r1 + 1, e.c2) ∈ E
      then [(e.r1, e.c1)] else [])
  else
    (if 0 < e.c1 ∧ (e.r1, e.c1 - 1, e.r2, e.c1 - 1) ∈ E ∧
        (e.r1, e.c1 - 1, e.r1, e.c1) ∈ E ∧ (e.r2, e.c1 - 1, e.r2, e.c1) ∈ E
      then [(e.r1, e.c1 - 1)] else []) ++
    (if e.c1 < cfg.cols - 1 ∧ (e.r1, e.c1 + 1, e.r2, e.c1 + 1) ∈ E ∧
        (e.r1, e.c1, e.r1, e.c1 + 1) ∈ E ∧ (e.r2, e.c1, e.r2, e.c1 + 1) ∈ E
      then [(e.r1, e.c1)] else [])

/-- `totalPossibleEdges` as computed inside `isGameOver`. -/
def totalPossibleEdges (rows cols : ℕ) : ℕ :=
  (rows - 1) * cols + rows * (cols - 1)

/-- `isGameOver()`: `state.edges.size >= totalPossibleEdges`. -/
def isGameOver (cfg : Config) (s : GameState) : Prop :=
  totalPossibleEdges cfg.rows cfg.cols ≤ s.edges.card

instance (cfg : Config) (s : GameState) : Decidable (isGameOver cfg s) :=
  inferInstanceAs (Decidable (_ ≤ _))

/-- The `forEach` accumulator step of the winner scan in `endGame`:
`(maxScore, winner, isTie)` against `(i, scores[i])`. -/
def endStep (acc : ℤ × ℤ × Bool) (p : ℕ × ℕ) : ℤ × ℤ × Bool :=
  if (p.2 : ℤ) > acc.1 then ((p.2 : ℤ), (p.1 : ℤ), false)
  else if (p.2 : ℤ) = acc.1 then (acc.1, acc.2.1, true)
  else acc

/-- The winner computation of `endGame`: starting from
`maxScore = -1, winner = -1, isTie = false` and scanning the players in
index order. -/
def endGameCalc (scores : List ℕ) : ℤ × ℤ × Bool :=
  scores.enum.foldl endStep (-1, -1, false)

/-- `endGame()`'s effect on game state: set `gameOver` (the winner scan
feeds the modal text only). -/
def endGame (s : GameState) : GameState := { s with gameOver := true }

/-- The interleaved `completedBoxes.forEach` loop of `handleCanvasClick`:
set the box owner and increment the mover's score for each completed box. -/
def completedFold (cp : ℕ) (cs : List (ℕ × ℕ)) (bs : List ((ℕ × ℕ) × ℕ))
    (sc : List ℕ) : List ((ℕ × ℕ) × ℕ) × List ℕ :=
  cs.foldl (fun acc b => (mapSet acc.1 b cp, bump acc.2 cp)) (bs, sc)

/-- The state after a fresh edge has been inserted and the completed boxes
awarded (the `completedBoxes.length !== 0` path, before the game-over
check). -/
def moveResult (cfg : Config) (s : GameState) (e : Edge) : GameState :=
  { s with
    edges := insert (edgeKey e) s.edges
    boxes := (completedFold s.currentPlayer
      (checkForCompletedBoxes cfg e (insert (edgeKey e) s.edges))
      s.boxes s.scores).1
    scores := (completedFold s.currentPlayer
      (checkForCompletedBoxes cfg e (insert (edgeKey e) s.edges))
      s.boxes s.scores).2 }

/-- The body of `handleCanvasClick` once the click has been resolved to
`findNearestEdge`'s result. -/
def clickEdge (cfg : Config) (s : GameState) (eo : Option Edge) : GameState :=
  if s.gameOver then s
  else
    match eo with
    | none => s
    | some e =>
      if edgeKey e ∈ s.edges then s
      else if checkForCompletedBoxes cfg e (insert (edgeKey e) s.edges) = [] then
        { s with edges := insert (edgeKey e) s.edges,
                 currentPlayer := (s.currentPlayer + 1) % cfg.players.length }
      else if isGameOver cfg (moveResult cfg s e) then endGame (moveResult cfg s e)
      else moveResult cfg s e

/-- `handleCanvasClick(event)` for a click at pixel position `(x, y)`. -/
def handleCanvasClick (cfg : Config) (s : GameState) (x y : ℚ) : GameState :=
  clickEdge cfg s (findNearestEdge cfg x y)

/-- The body of `handleMouseMove` once the position has been resolved to
`findNearestEdge`'s result. -/
def mouseMoveEdge (_cfg : Config) (s : GameState) (eo : Option Edge) : GameState :=
  if s.gameOver then s
  else
    match eo with
    | none => { s with highlightedEdge := none }
    | some e =>
      if edgeKey e ∈ s.edges then { s with highlightedEdge := none }
      else { s with highlightedEdge := some e }

/-- `handleMouseMove(event)` for a pointer at pixel position `(x, y)`. -/
def handleMouseMove (cfg : Config) (s : GameState) (x y : ℚ) : GameState :=
  mouseMoveEdge cfg s (findNearestEdge cfg x y)

/-- `resetGame()`: clear edges and boxes, reset player/flags/highlight,
zero every player's score. -/
def resetGame (cfg : Config) (_s : GameState) : GameState :=
  { currentPlayer := 0
    scores := List.replicate cfg.players.length 0
    edges := ∅
    boxes := []
    highlightedEdge := none
    gameOver := false }

/-! ### The legal-edge universe

`findNearestEdge` is the only producer of edges; its guards bound
horizontal edges by `0 ≤ r < rows, 0 ≤ c < cols-1` and vertical edges by
`0 ≤ r < rows-1, 0 ≤ c < cols`. -/

/-- All edges the hit-testing can produce. -/
def legalEdgeFinset (rows cols : ℕ) : Finset Edge :=
  ((Finset.range rows) ×ˢ (Finset.range (cols - 1))).image
      (fun p => ⟨p.1, p.2, p.1, p.2 + 1, true⟩) ∪
  ((Finset.range (rows - 1)) ×ˢ (Finset.range cols)).image
      (fun p => ⟨p.1, p.2, p.1 + 1, p.2, false⟩)

/-- The canonical keys of all legal edges. -/
def legalKeys (rows cols : ℕ) : Finset EdgeKey :=
  (legalEdgeFinset rows cols).image edgeKey

/-- The four bounding edges of the box with top-left corner `b`, in the
key format used throughout `game.js` (top, bottom, left, right). -/
def cellKeys (b : ℕ × ℕ) : Finset EdgeKey :=
  {(b.1, b.2, b.1, b.2 + 1), (b.1 + 1, b.2, b.1 + 1, b.2 + 1),
   (b.1, b.2, b.1 + 1, b.2), (b.1, b.2 + 1, b.1 + 1, b.2 + 1)}

/-- An optional edge that hit testing could have produced. -/
def LegalOpt (cfg : Config) : Option Edge → Prop
  | none => True
  | some e => e ∈ legalEdgeFinset cfg.rows cfg.cols

/-- States reachable from initialization through the event handlers.
Clicks and hovers reach the engine only through `findNearestEdge`, whose
results are always legal edges (`findNearestEdge_legal`), so quantifying
over legal-or-absent resolved edges covers every pixel input. -/
inductive Reachable (cfg : Config) : GameState → Prop
  | init : Reachable cfg (initState cfg)
  | click {s : GameState} {eo : Option Edge} (he : LegalOpt cfg eo)
      (hs : Reachable cfg s) : Reachable cfg (clickEdge cfg s eo)
  | mousemove {s : GameState} (eo : Option Edge)
      (hs : Reachable cfg s) : Reachable cfg (mouseMoveEdge cfg s eo)
  | reset {s : GameState} (hs : Reachable cfg s) :
      Reachable cfg (resetGame cfg s)

/-- Progress of a game from a given state through clicks and hovers only
(no reset): used to state that box ownership, once assigned, persists for
the rest of the game. -/
inductive ClickReach (cfg : Config) : GameState → GameState → Prop
  | refl {s : GameState} : ClickReach cfg s s
  | click {s t : GameState} {eo : Option Edge} (he : LegalOpt cfg eo)
      (hs : ClickReach cfg s t) : ClickReach cfg s (clickEdge cfg t eo)
  | mousemove {s t : GameState} (eo : Option Edge)
      (hs : ClickReach cfg s t) : ClickReach cfg s (mouseMoveEdge cfg t eo)

/-! ### Basic facts about the edge universe -/

lemma mem_legalEdgeFinset {rows cols : ℕ} {e : Edge} :
    e ∈ legalEdgeFinset rows cols ↔
      (∃ r c, r < rows ∧ c < cols - 1 ∧ e = ⟨r, c, r, c + 1, true⟩) ∨
      (∃ r c, r < rows - 1 ∧ c < cols ∧ e = ⟨r, c, r + 1, c, false⟩) := by
  simp only [legalEdgeFinset, Finset.mem_union, Finset.mem_image,
    Finset.mem_product, Finset.mem_range, Prod.exists]
  constructor
  · rintro (⟨r, c, ⟨hr, hc⟩, rfl⟩ | ⟨r, c, ⟨hr, hc⟩, rfl⟩)
    · exact Or.inl ⟨r, c, hr, hc, rfl⟩
    · exact Or.inr ⟨r, c, hr, hc, rfl⟩
  · rintro (⟨r, c, hr, hc, rfl⟩ | ⟨r, c, hr, hc, rfl⟩)
    · exact Or.inl ⟨r, c, ⟨hr, hc⟩, rfl⟩
    · exact Or.inr ⟨r, c, ⟨hr, hc⟩, rfl⟩

lemma mem_legalKeys {rows cols : ℕ} {k : EdgeKey} :
    k ∈ legalKeys rows cols ↔
      (∃ r c, r < rows ∧ c < cols - 1 ∧ k = (r, c, r, c + 1)) ∨
      (∃ r c, r < rows - 1 ∧ c < cols ∧ k = (r, c, r + 1, c)) := by
  simp only [legalKeys, Finset.mem_image]
  constructor
  · rintro ⟨e, he, rfl⟩
    rcases mem_legalEdgeFinset.1 he with ⟨r, c, hr, hc, rfl⟩ | ⟨r, c, hr, hc, rfl⟩
    · exact Or.inl ⟨r, c, hr, hc, rfl⟩
    · exact Or.inr ⟨r, c, hr, hc, rfl⟩
  · rintro (⟨r, c, hr, hc, rfl⟩ | ⟨r, c, hr, hc, rfl⟩)
    · exact ⟨⟨r, c, r, c + 1, true⟩,
        mem_legalEdgeFinset.2 (Or.inl ⟨r, c, hr, hc, rfl⟩), rfl⟩
    · exact ⟨⟨r, c, r + 1, c, false⟩,
        mem_legalEdgeFinset.2 (Or.inr ⟨r, c, hr, hc, rfl⟩), rfl⟩

lemma card_legalEdgeFinset (rows cols : ℕ) :
    (legalEdgeFinset rows cols).card = rows * (cols - 1) + (rows - 1) * cols := by
  have hinj1 : Function.Injective
      (fun p : ℕ × ℕ => (⟨p.1, p.2, p.1, p.2 + 1, true⟩ : Edge)) := by
    intro a b h
    simp only [Edge.mk.injEq] at h
    exact Prod.ext h.1 h.2.1
  have hinj2 : Function.Injective
      (fun p : ℕ × ℕ => (⟨p.1, p.2, p.1 + 1, p.2, false⟩ : Edge)) := by
    intro a b h
    simp only [Edge.mk.injEq] at h
    exact Prod.ext h.1 h.2.1
  have hdisj : Disjoint
      (((Finset.range rows) ×ˢ (Finset.range (cols - 1))).image
        (fun p : ℕ × ℕ => (⟨p.1, p.2, p.1, p.2 + 1, true⟩ : Edge)))
      (((Finset.range (rows - 1)) ×ˢ (Finset.range cols)).image
        (fun p : ℕ × ℕ => (⟨p.1, p.2, p.1 + 1, p.2, false⟩ : Edge))) := by
    rw [Finset.disjoint_left]
    rintro e he1 he2
    simp only [Finset.mem_image] at he1 he2
    obtain ⟨p, -, rfl⟩ := he1
    obtain ⟨q, -, hq⟩ := he2
    simp only [Edge.mk.injEq] at hq
    exact Bool.false_ne_true hq.2.2.2.2
  rw [legalEdgeFinset, Finset.card_union_of_disjoint hdisj,
    Finset.card_image_of_injective _ hinj1, Finset.card_image_of_injective _ hinj2,
    Finset.card_product, Finset.card_product, Finset.card_range,
    Finset.card_range, Finset.card_range, Finset.card_range]

lemma card_legalKeys_eq_edges (rows cols : ℕ) :
    (legalKeys rows cols).card = (legalEdgeFinset rows cols).card := by
  apply Finset.card_image_of_injOn
  intro e1 h1 e2 h2 hk
  rcases mem_legalEdgeFinset.1 h1 with ⟨r, c, hr, hc, rfl⟩ | ⟨r, c, hr, hc, rfl⟩ <;>
    rcases mem_legalEdgeFinset.1 h2 with ⟨r', c', hr', hc', rfl⟩ | ⟨r', c', hr', hc', rfl⟩ <;>
    simp only [edgeKey, Prod.mk.injEq] at hk
  · obtain ⟨rfl, rfl, -⟩ := hk
    rfl
  · exfalso
    obtain ⟨h1, h2, h3, h4⟩ := hk
    omega
  · exfalso
    obtain ⟨h1, h2, h3, h4⟩ := hk
    omega
  · obtain ⟨rfl, rfl, -⟩ := hk
    rfl

lemma card_legalKeys (rows cols : ℕ) :
    (legalKeys rows cols).card = totalPossibleEdges rows cols := by
  rw [card_legalKeys_eq_edges, card_legalEdgeFinset, totalPossibleEdges,
    Nat.add_comm]

lemma findNearestEdge_legal {cfg : Config} {x y : ℚ} {e : Edge}
    (h : findNearestEdge cfg x y = some e) :
    e ∈ legalEdgeFinset cfg.rows cfg.cols := by
  simp only [findNearestEdge] at h
  split_ifs at h with h1 h2
  · obtain ⟨-, hx0, hx1, hy0, hy1⟩ := h1
    injection h with h
    subst h
    refine mem_legalEdgeFinset.2 (Or.inl ⟨_, _, ?_, ?_, rfl⟩) <;> omega
  · obtain ⟨-, hy0, hy1, hx0, hx1⟩ := h2
    injection h with h
    subst h
    refine mem_legalEdgeFinset.2 (Or.inr ⟨_, _, ?_, ?_, rfl⟩) <;> omega

/-! ### Association-list map and scores lemmas -/

lemma mapHas_true_iff {m : List ((ℕ × ℕ) × ℕ)} {k : ℕ × ℕ} :
    mapHas m k = true ↔ ∃ v, (k, v) ∈ m := by
  simp only [mapHas, List.any_eq_true, decide_eq_true_eq]
  constructor
  · rintro ⟨⟨k', v⟩, hm, rfl⟩
    exact ⟨v, hm⟩
  · rintro ⟨v, hv⟩
    exact ⟨(k, v), hv, rfl⟩

lemma mapHas_mapSet {m : List ((ℕ × ℕ) × ℕ)} {k b : ℕ × ℕ} {v : ℕ} :
    mapHas (mapSet m k v) b = true ↔ b = k ∨ mapHas m b = true := by
  rw [mapSet]
  split_ifs with hk
  · simp only [mapHas, List.any_map, List.any_eq_true, decide_eq_true_eq,
      Function.comp]
    constructor
    · rintro ⟨p, hp, hpe⟩
      split_ifs at hpe with h
      · exact Or.inl hpe.symm
      · exact Or.inr ⟨p, hp, hpe⟩
    · rintro (rfl | ⟨p, hp, hpe⟩)
      · obtain ⟨w, hw⟩ := mapHas_true_iff.1 hk
        exact ⟨(b, w), hw, by simp⟩
      · refine ⟨p, hp, ?_⟩
        split_ifs with h
        · rw [← hpe, h]
        · exact hpe
  · simp only [mapHas, List.any_append, List.any_cons, List.any_nil,
      Bool.or_eq_true, Bool.or_false, decide_eq_true_eq]
    constructor
    · rintro (h | h)
      · exact Or.inr h
      · exact Or.inl h.symm
    · rintro (rfl | h)
      · exact Or.inr rfl
      · exact Or.inl h

lemma mapGet_cons {p : (ℕ × ℕ) × ℕ} {m : List ((ℕ × ℕ) × ℕ)} {b : ℕ × ℕ} :
    mapGet (p :: m) b = if p.1 = b then some p.2 else mapGet m b := by
  by_cases h : p.1 = b
  · simp [mapGet, List.find?_cons, h]
  · simp [mapGet, List.find?_cons, h]

lemma mapGet_map_ne {m : List ((ℕ × ℕ) × ℕ)} {k b : ℕ × ℕ} {v : ℕ}
    (hne : b ≠ k) :
    mapGet (m.map (fun p => if p.1 = k then (k, v) else p)) b = mapGet m b := by
  induction m with
  | nil => rfl
  | cons p m ih =>
    rw [List.map_cons]
    by_cases hpk : p.1 = k
    · rw [if_pos hpk, mapGet_cons, mapGet_cons,
        if_neg (show ¬((k, v).1 = b) from fun h => hne h.symm),
        if_neg (fun h : p.1 = b => hne (h.symm.trans hpk))]
      exact ih
    · rw [if_neg hpk, mapGet_cons, mapGet_cons]
      by_cases hpb : p.1 = b
      · rw [if_pos hpb, if_pos hpb]
      · rw [if_neg hpb, if_neg hpb]
        exact ih

lemma mapGet_append_single_ne {m : List ((ℕ × ℕ) × ℕ)} {k b : ℕ × ℕ} {v : ℕ}
    (hne : b ≠ k) : mapGet (m ++ [(k, v)]) b = mapGet m b := by
  induction m with
  | nil =>
    rw [List.nil_append, mapGet_cons,
      if_neg (show ¬((k, v).1 = b) from fun h => hne h.symm)]
  | cons p m ih =>
    rw [List.cons_append, mapGet_cons, mapGet_cons]
    by_cases hpb : p.1 = b
    · rw [if_pos hpb, if_pos hpb]
    · rw [if_neg hpb, if_neg hpb]
      exact ih

lemma mapGet_mapSet_ne {m : List ((ℕ × ℕ) × ℕ)} {k b : ℕ × ℕ} {v : ℕ}
    (hne : b ≠ k) : mapGet (mapSet m k v) b = mapGet m b := by
  rw [mapSet]
  split_ifs with hk
  · exact mapGet_map_ne hne
  · exact mapGet_append_single_ne hne

lemma mapGet_isSome_iff_mapHas {m : List ((ℕ × ℕ) × ℕ)} {b : ℕ × ℕ} :
    (mapGet m b).isSome = true ↔ mapHas m b = true := by
  induction m with
  | nil => simp [mapGet, mapHas]
  | cons p m ih =>
    rw [mapGet_cons]
    by_cases hpb : p.1 = b
    · simp [mapHas, hpb]
    · rw [if_neg hpb]
      simp only [mapHas, List.any_cons, Bool.or_eq_true, decide_eq_true_eq]
      rw [ih]
      simp [mapHas, hpb]

lemma length_mapSet_not_has {m : List ((ℕ × ℕ) × ℕ)} {k : ℕ × ℕ} {v : ℕ}
    (h : mapHas m k = false) : (mapSet m k v).length = m.length + 1 := by
  rw [mapSet, if_neg (by rw [h]; exact Bool.false_ne_true), List.length_append,
    List.length_singleton]

/-! ### Folding a completed-box list into the boxes map and scores -/

lemma mapHas_foldl {cs : List (ℕ × ℕ)} {m : List ((ℕ × ℕ) × ℕ)} {v : ℕ}
    {b : ℕ × ℕ} :
    mapHas (cs.foldl (fun bs c => mapSet bs c v) m) b = true ↔
      b ∈ cs ∨ mapHas m b = true := by
  induction cs generalizing m with
  | nil => simp
  | cons c cs ih =>
    rw [List.foldl_cons, ih, mapHas_mapSet, List.mem_cons]
    tauto

lemma mapGet_foldl_not_mem {cs : List (ℕ × ℕ)} {m : List ((ℕ × ℕ) × ℕ)}
    {v : ℕ} {b : ℕ × ℕ} (hb : b ∉ cs) :
    mapGet (cs.foldl (fun bs c => mapSet bs c v) m) b = mapGet m b := by
  induction cs generalizing m with
  | nil => rfl
  | cons c cs ih =>
    rw [List.foldl_cons, ih (fun h => hb (List.mem_cons_of_mem _ h)),
      mapGet_mapSet_ne (fun h => hb (by rw [h]; exact List.mem_cons_self c cs))]

lemma length_foldl_mapSet {cs : List (ℕ × ℕ)} {m : List ((ℕ × ℕ) × ℕ)} {v : ℕ}
    (hnd : cs.Nodup) (hfresh : ∀ b ∈ cs, mapHas m b = false) :
    (cs.foldl (fun bs c => mapSet bs c v) m).length = m.length + cs.length := by
  induction cs generalizing m with
  | nil => rfl
  | cons c cs ih =>
    have hc : mapHas m c = false := hfresh c (List.mem_cons_self c cs)
    have hrest : ∀ b ∈ cs, mapHas (mapSet m c v) b = false := by
      intro b hb
      cases htrue : mapHas (mapSet m c v) b with
      | false => rfl
      | true =>
        exfalso
        rcases mapHas_mapSet.1 htrue with h | h
        · exact (List.nodup_cons.1 hnd).1 (h ▸ hb)
        · rw [hfresh b (List.mem_cons_of_mem _ hb)] at h
          exact Bool.false_ne_true h
    rw [List.foldl_cons, ih (List.nodup_cons.1 hnd).2 hrest,
      length_mapSet_not_has hc, List.length_cons]
    omega

lemma length_bump (sc : List ℕ) (i : ℕ) : (bump sc i).length = sc.length := by
  rw [bump, List.length_set]

lemma sum_bump {sc : List ℕ} {i : ℕ} (h : i < sc.length) :
    (bump sc i).sum = sc.sum + 1 := by
  induction sc generalizing i with
  | nil => simp at h
  | cons x sc ih =>
    cases i with
    | zero =>
      simp only [bump, List.getD_cons_zero, List.set_cons_zero, List.sum_cons]
      omega
    | succ i =>
      have hi : i < sc.length := by simpa using h
      simp only [bump, List.getD_cons_succ, List.set_cons_succ, List.sum_cons]
      rw [show sc.set i (sc.getD i 0 + 1) = bump sc i from rfl, ih hi]
      omega

lemma foldl_bump_length {α : Type} (cs : List α) (sc : List ℕ) (i : ℕ) :
    (cs.foldl (fun s _ => bump s i) sc).length = sc.length := by
  induction cs generalizing sc with
  | nil => rfl
  | cons c cs ih => rw [List.foldl_cons, ih, length_bump]

lemma foldl_bump_sum {α : Type} {cs : List α} {sc : List ℕ} {i : ℕ}
    (h : i < sc.length) :
    (cs.foldl (fun s _ => bump s i) sc).sum = sc.sum + cs.length := by
  induction cs generalizing sc with
  | nil => rfl
  | cons c cs ih =>
    rw [List.foldl_cons, ih (by rw [length_bump]; exact h), sum_bump h,
      List.length_cons]
    omega

lemma foldl_pair_split {α β γ : Type} (f : β → α → β) (g : γ → α → γ)
    (cs : List α) (b : β) (c : γ) :
    cs.foldl (fun acc x => (f acc.1 x, g acc.2 x)) (b, c) =
      (cs.foldl f b, cs.foldl g c) := by
  induction cs generalizing b c with
  | nil => rfl
  | cons x cs ih => rw [List.foldl_cons, List.foldl_cons, List.foldl_cons, ih]

/-! ### Characterizing completion detection -/

lemma cellKeys_subset_iff {b : ℕ × ℕ} {S : Finset EdgeKey} :
    cellKeys b ⊆ S ↔
      (b.1, b.2, b.1, b.2 + 1) ∈ S ∧ (b.1 + 1, b.2, b.1 + 1, b.2 + 1) ∈ S ∧
      (b.1, b.2, b.1 + 1, b.2) ∈ S ∧ (b.1, b.2 + 1, b.1 + 1, b.2 + 1) ∈ S := by
  simp [cellKeys, Finset.insert_subset_iff]

lemma mem_checkH {cfg : Config} {r c : ℕ} {E : Finset EdgeKey} {b : ℕ × ℕ} :
    b ∈ checkForCompletedBoxes cfg ⟨r, c, r, c + 1, true⟩ E ↔
      (0 < r ∧ (r - 1, c, r - 1, c + 1) ∈ E ∧ (r - 1, c, r, c) ∈ E ∧
        (r - 1, c + 1, r, c + 1) ∈ E ∧ b = (r - 1, c)) ∨
      (r < cfg.rows - 1 ∧ (r + 1, c, r + 1, c + 1) ∈ E ∧ (r, c, r + 1, c) ∈ E ∧
        (r, c + 1, r + 1, c + 1) ∈ E ∧ b = (r, c)) := by
  simp only [checkForCompletedBoxes, if_true]
  rw [List.mem_append]
  split_ifs with h1 h2 h2 <;>
    simp only [List.mem_singleton, List.not_mem_nil, or_false, false_or] <;>
    tauto

lemma mem_checkV {cfg : Config} {r c : ℕ} {E : Finset EdgeKey} {b : ℕ × ℕ} :
    b ∈ checkForCompletedBoxes cfg ⟨r, c, r + 1, c, false⟩ E ↔
      (0 < c ∧ (r, c - 1, r + 1, c - 1) ∈ E ∧ (r, c - 1, r, c) ∈ E ∧
        (r + 1, c - 1, r + 1, c) ∈ E ∧ b = (r, c - 1)) ∨
      (c < cfg.cols - 1 ∧ (r, c + 1, r + 1, c + 1) ∈ E ∧ (r, c, r, c + 1) ∈ E ∧
        (r + 1, c, r + 1, c + 1) ∈ E ∧ b = (r, c)) := by
  simp only [checkForCompletedBoxes, if_false, Bool.false_eq_true]
  rw [List.mem_append]
  split_ifs with h1 h2 h2 <;>
    simp only [List.mem_singleton, List.not_mem_nil, or_false, false_or] <;>
    tauto

/-- Inserting a fresh legal edge completes exactly the boxes that the
source's 3-other-edges test reports: afterwards a box is complete iff it
was already complete or is in the reported list. -/
lemma completed_box_iff {cfg : Config} {e : Edge} {E : Finset EdgeKey}
    {b : ℕ × ℕ} (he : e ∈ legalEdgeFinset cfg.rows cfg.cols)
    (hfresh : edgeKey e ∉ E) (hEleg : E ⊆ legalKeys cfg.rows cfg.cols) :
    (b ∈ checkForCompletedBoxes cfg e (insert (edgeKey e) E) ∨ cellKeys b ⊆ E)
      ↔ cellKeys b ⊆ insert (edgeKey e) E := by
  obtain ⟨b1, b2⟩ := b
  rcases mem_legalEdgeFinset.1 he with ⟨r, c, hr, hc, rfl⟩ | ⟨r, c, hr, hc, rfl⟩
  · -- horizontal edge (r,c)-(r,c+1); its key is (r, c, r, c+1)
    simp only [edgeKey] at hfresh ⊢
    constructor
    · rintro (hmem | hsub)
      · rcases mem_checkH.1 hmem with ⟨hr0, h1, h2, h3, hb⟩ | ⟨hrlt, h1, h2, h3, hb⟩
        · obtain ⟨rfl, rfl⟩ : b1 = r - 1 ∧ b2 = c := by
            simpa [Prod.mk.injEq] using hb
          rw [cellKeys_subset_iff]
          have hr1 : r - 1 + 1 = r := by omega
          rw [hr1]
          exact ⟨h1, Finset.mem_insert_self _ _, h2, h3⟩
        · obtain ⟨rfl, rfl⟩ : b1 = r ∧ b2 = c := by
            simpa [Prod.mk.injEq] using hb
          rw [cellKeys_subset_iff]
          exact ⟨Finset.mem_insert_self _ _, h1, h2, h3⟩
      · exact hsub.trans (Finset.subset_insert _ _)
    · intro hsub
      rw [cellKeys_subset_iff] at hsub
      obtain ⟨ht, hbo, hl, hrt⟩ := hsub
      by_cases hb1 : b1 = r ∧ b2 = c
      · obtain ⟨rfl, rfl⟩ := hb1
        left
        apply mem_checkH.2
        right
        refine ⟨?_, hbo, hl, hrt, rfl⟩
        rcases Finset.mem_insert.1 hbo with h | h
        · exfalso
          simp only [Prod.mk.injEq] at h
          omega
        · rcases mem_legalKeys.1 (hEleg h) with ⟨r', c', hr', hc', hk⟩ |
            ⟨r', c', hr', hc', hk⟩ <;>
          · simp only [Prod.mk.injEq] at hk
            omega
      · by_cases hb2 : 0 < r ∧ b1 = r - 1 ∧ b2 = c
        · obtain ⟨hr0, rfl, rfl⟩ := hb2
          left
          apply mem_checkH.2
          left
          have hr1 : r - 1 + 1 = r := by omega
          rw [hr1] at hl hrt
          exact ⟨hr0, ht, hl, hrt, rfl⟩
        · right
          rw [cellKeys_subset_iff]
          refine ⟨?_, ?_, ?_, ?_⟩
          · rcases Finset.mem_insert.1 ht with h | h
            · exfalso
              simp only [Prod.mk.injEq] at h
              exact hb1 ⟨h.1, h.2.1⟩
            · exact h
          · rcases Finset.mem_insert.1 hbo with h | h
            · exfalso
              simp only [Prod.mk.injEq] at h
              exact hb2 ⟨by omega, by omega, h.2.1⟩
            · exact h
          · rcases Finset.mem_insert.1 hl with h | h
            · exfalso
              simp only [Prod.mk.injEq] at h
              omega
            · exact h
          · rcases Finset.mem_insert.1 hrt with h | h
            · exfalso
              simp only [Prod.mk.injEq] at h
              omega
            · exact h
  · -- vertical edge (r,c)-(r+1,c); its key is (r, c, r+1, c)
    simp only [edgeKey] at hfresh ⊢
    constructor
    · rintro (hmem | hsub)
      · rcases mem_checkV.1 hmem with ⟨hc0, h1, h2, h3, hb⟩ | ⟨hclt, h1, h2, h3, hb⟩
        · obtain ⟨rfl, rfl⟩ : b1 = r ∧ b2 = c - 1 := by
            simpa [Prod.mk.injEq] using hb
          rw [cellKeys_subset_iff]
          have hc1 : c - 1 + 1 = c := by omega
          rw [hc1]
          exact ⟨h2, h3, h1, Finset.mem_insert_self _ _⟩
        · obtain ⟨rfl, rfl⟩ : b1 = r ∧ b2 = c := by
            simpa [Prod.mk.injEq] using hb
          rw [cellKeys_subset_iff]
          exact ⟨h2, h3, Finset.mem_insert_self _ _, h1⟩
      · exact hsub.trans (Finset.subset_insert _ _)
    · intro hsub
      rw [cellKeys_subset_iff] at hsub
      obtain ⟨ht, hbo, hl, hrt⟩ := hsub
      by_cases hb1 : b1 = r ∧ b2 = c
      · obtain ⟨rfl, rfl⟩ := hb1
        left
        apply mem_checkV.2
        right
        refine ⟨?_, hrt, ht, hbo, rfl⟩
        rcases Finset.mem_insert.1 hrt with h | h
        · exfalso
          simp only [Prod.mk.injEq] at h
          omega
        · rcases mem_legalKeys.1 (hEleg h) with ⟨r', c', hr', hc', hk⟩ |
            ⟨r', c', hr', hc', hk⟩ <;>
          · simp only [Prod.mk.injEq] at hk
            omega
      · by_cases hb2 : 0 < c ∧ b1 = r ∧ b2 = c - 1
        · obtain ⟨hc0, rfl, rfl⟩ := hb2
          left
          apply mem_checkV.2
          left
          have hc1 : c - 1 + 1 = c := by omega
          rw [hc1] at ht hbo
          exact ⟨hc0, hl, ht, hbo, rfl⟩
        · right
          rw [cellKeys_subset_iff]
          refine ⟨?_, ?_, ?_, ?_⟩
          · rcases Finset.mem_insert.1 ht with h | h
            · exfalso
              simp only [Prod.mk.injEq] at h
              omega
            · exact h
          · rcases Finset.mem_insert.1 hbo with h | h
            · exfalso
              simp only [Prod.mk.injEq] at h
              omega
            · exact h
          · rcases Finset.mem_insert.1 hl with h | h
            · exfalso
              simp only [Prod.mk.injEq] at h
              exact hb1 ⟨h.1, h.2.1⟩
            · exact h
          · rcases Finset.mem_insert.1 hrt with h | h
            · exfalso
              simp only [Prod.mk.injEq] at h
              exact hb2 ⟨by omega, by omega, by omega⟩
            · exact h

/-- A box reported as completed was not complete before the move: the
fresh edge is one of its four bounding edges. -/
lemma completed_not_complete_before {cfg : Config} {e : Edge}
    {E : Finset EdgeKey} {b : ℕ × ℕ}
    (he : e ∈ legalEdgeFinset cfg.rows cfg.cols) (hfresh : edgeKey e ∉ E)
    (hmem : b ∈ checkForCompletedBoxes cfg e (insert (edgeKey e) E)) :
    ¬ cellKeys b ⊆ E := by
  intro hsub
  rw [cellKeys_subset_iff] at hsub
  rcases mem_legalEdgeFinset.1 he with ⟨r, c, hr, hc, rfl⟩ | ⟨r, c, hr, hc, rfl⟩
  · simp only [edgeKey] at hfresh
    rcases mem_checkH.1 hmem with ⟨hr0, -, -, -, rfl⟩ | ⟨-, -, -, -, rfl⟩
    · have hr1 : r - 1 + 1 = r := by omega
      have := hsub.2.1
      rw [hr1] at this
      exact hfresh this
    · exact hfresh hsub.1
  · simp only [edgeKey] at hfresh
    rcases mem_checkV.1 hmem with ⟨hc0, -, -, -, rfl⟩ | ⟨-, -, -, -, rfl⟩
    · have hc1 : c - 1 + 1 = c := by omega
      have := hsub.2.2.2
      rw [hc1] at this
      exact hfresh this
    · exact hfresh hsub.2.2.1

/-- The completed-box list of a single move has no duplicates (its two
possible entries are the two distinct boxes flanking the edge). -/
lemma completed_nodup {cfg : Config} {e : Edge} {E : Finset EdgeKey}
    (he : e ∈ legalEdgeFinset cfg.rows cfg.cols) :
    (checkForCompletedBoxes cfg e E).Nodup := by
  rcases mem_legalEdgeFinset.1 he with ⟨r, c, hr, hc, rfl⟩ | ⟨r, c, hr, hc, rfl⟩ <;>
    simp only [checkForCompletedBoxes, if_true, if_false, Bool.false_eq_true] <;>
    split_ifs with h1 h2 h2 <;>
    simp [List.nodup_cons, Prod.mk.injEq] <;>
    omega

/-- If the inserted edge fills the whole board, the move completes at
least one box: the flanking box exists (grid at least 2×2) and its other
three edges, being legal, are all drawn. -/
lemma completed_ne_nil_of_full {cfg : Config} {e : Edge} {E : Finset EdgeKey}
    (h2r : 2 ≤ cfg.rows) (h2c : 2 ≤ cfg.cols)
    (he : e ∈ legalEdgeFinset cfg.rows cfg.cols)
    (hfull : ∀ k ∈ legalKeys cfg.rows cfg.cols, k ∈ insert (edgeKey e) E) :
    checkForCompletedBoxes cfg e (insert (edgeKey e) E) ≠ [] := by
  rcases mem_legalEdgeFinset.1 he with ⟨r, c, hr, hc, rfl⟩ | ⟨r, c, hr, hc, rfl⟩
  · by_cases hr0 : 0 < r
    · apply List.ne_nil_of_mem (a := (r - 1, c))
      apply mem_checkH.2
      left
      refine ⟨hr0, hfull _ ?_, hfull _ ?_, hfull _ ?_, rfl⟩
      · exact mem_legalKeys.2 (Or.inl ⟨r - 1, c, by omega, hc, rfl⟩)
      · refine mem_legalKeys.2 (Or.inr ⟨r - 1, c, by omega, by omega, ?_⟩)
        rw [show r - 1 + 1 = r from by omega]
      · refine mem_legalKeys.2 (Or.inr ⟨r - 1, c + 1, by omega, by omega, ?_⟩)
        rw [show r - 1 + 1 = r from by omega]
    · apply List.ne_nil_of_mem (a := (r, c))
      apply mem_checkH.2
      right
      refine ⟨by omega, hfull _ ?_, hfull _ ?_, hfull _ ?_, rfl⟩
      · exact mem_legalKeys.2 (Or.inl ⟨r + 1, c, by omega, hc, rfl⟩)
      · exact mem_legalKeys.2 (Or.inr ⟨r, c, by omega, by omega, rfl⟩)
      · exact mem_legalKeys.2 (Or.inr ⟨r, c + 1, by omega, by omega, rfl⟩)
  · by_cases hc0 : 0 < c
    · apply List.ne_nil_of_mem (a := (r, c - 1))
      apply mem_checkV.2
      left
      refine ⟨hc0, hfull _ ?_, hfull _ ?_, hfull _ ?_, rfl⟩
      · exact mem_legalKeys.2 (Or.inr ⟨r, c - 1, hr, by omega, rfl⟩)
      · refine mem_legalKeys.2 (Or.inl ⟨r, c - 1, by omega, by omega, ?_⟩)
        rw [show c - 1 + 1 = c from by omega]
      · refine mem_legalKeys.2 (Or.inl ⟨r + 1, c - 1, by omega, by omega, ?_⟩)
        rw [show c - 1 + 1 = c from by omega]
    · apply List.ne_nil_of_mem (a := (r, c))
      apply mem_checkV.2
      right
      refine ⟨by omega, hfull _ ?_, hfull _ ?_, hfull _ ?_, rfl⟩
      · exact mem_legalKeys.2 (Or.inr ⟨r, c + 1, hr, by omega, rfl⟩)
      · exact mem_legalKeys.2 (Or.inl ⟨r, c, by omega, by omega, rfl⟩)
      · exact mem_legalKeys.2 (Or.inl ⟨r + 1, c, by omega, by omega, rfl⟩)

/-- Every pixel click keeps the state reachable: hit testing only ever
produces legal edges. -/
lemma reachable_handleCanvasClick {cfg : Config} {s : GameState}
    (hs : Reachable cfg s) (x y : ℚ) :
    Reachable cfg (handleCanvasClick cfg s x y) := by
  have hleg : LegalOpt cfg (findNearestEdge cfg x y) := by
    cases hfe : findNearestEdge cfg x y with
    | none => trivial
    | some e => exact findNearestEdge_legal hfe
  exact Reachable.click hleg hs

lemma reachable_handleMouseMove {cfg : Config} {s : GameState}
    (hs : Reachable cfg s) (x y : ℚ) :
    Reachable cfg (handleMouseMove cfg s x y) :=
  Reachable.mousemove _ hs

/-! ### The master reachability invariant -/

/-- The invariant maintained by every event handler. -/
structure Inv (cfg : Config) (s : GameState) : Prop where
  edges_legal : s.edges ⊆ legalKeys cfg.rows cfg.cols
  box_iff : ∀ b : ℕ × ℕ, mapHas s.boxes b = true ↔ cellKeys b ⊆ s.edges
  score_sum : s.scores.sum = s.boxes.length
  over_iff : s.gameOver = true ↔
    s.edges.card = totalPossibleEdges cfg.rows cfg.cols
  scores_len : s.scores.length = cfg.players.length
  cp_lt : s.currentPlayer < cfg.players.length

lemma inv_initState {cfg : Config} (h2r : 2 ≤ cfg.rows) (h2c : 2 ≤ cfg.cols)
    (hp : cfg.players ≠ []) : Inv cfg (initState cfg) := by
  refine ⟨?_, ?_, ?_, ?_, ?_, ?_⟩
  · intro k hk
    exact absurd hk (Finset.not_mem_empty k)
  · intro b
    constructor
    · intro h
      exact absurd h (by simp [mapHas, initState])
    · intro h
      exfalso
      have : (b.1, b.2, b.1, b.2 + 1) ∈ (∅ : Finset EdgeKey) :=
        h (by simp [cellKeys])
      exact absurd this (Finset.not_mem_empty _)
  · simp [initState]
  · simp only [initState, Finset.card_empty]
    constructor
    · intro h
      exact absurd h (by simp)
    · intro h
      exfalso
      have h1 : 0 < (cfg.rows - 1) * cfg.cols := Nat.mul_pos (by omega) (by omega)
      rw [totalPossibleEdges] at h
      omega
  · simp [initState]
  · simp only [initState]
    exact List.length_pos.2 hp

lemma clickEdge_gameOver {cfg : Config} {s : GameState} {eo : Option Edge}
    (hgo : s.gameOver = true) : clickEdge cfg s eo = s := by
  unfold clickEdge
  rw [if_pos hgo]

lemma clickEdge_none {cfg : Config} {s : GameState}
    (hgo : s.gameOver = false) : clickEdge cfg s none = s := by
  unfold clickEdge
  rw [if_neg (by rw [hgo]; exact Bool.false_ne_true)]

lemma clickEdge_some {cfg : Config} {s : GameState} {e : Edge}
    (hgo : s.gameOver = false) :
    clickEdge cfg s (some e) =
      if edgeKey e ∈ s.edges then s
      else if checkForCompletedBoxes cfg e (insert (edgeKey e) s.edges) = [] then
        { s with edges := insert (edgeKey e) s.edges,
                 currentPlayer := (s.currentPlayer + 1) % cfg.players.length }
      else if isGameOver cfg (moveResult cfg s e) then endGame (moveResult cfg s e)
      else moveResult cfg s e := by
  unfold clickEdge
  rw [if_neg (by rw [hgo]; exact Bool.false_ne_true)]

lemma completedFold_eq (cp : ℕ) (cs : List (ℕ × ℕ))
    (bs : List ((ℕ × ℕ) × ℕ)) (sc : List ℕ) :
    completedFold cp cs bs sc =
      (cs.foldl (fun m b => mapSet m b cp) bs,
       cs.foldl (fun l _ => bump l cp) sc) :=
  foldl_pair_split (fun m b => mapSet m b cp) (fun l _ => bump l cp) cs bs sc

/-- Effect of a successful fresh-edge click on the drawn-edge set. -/
lemma clickEdge_edges_fresh {cfg : Config} {s : GameState} {e : Edge}
    (hgo : s.gameOver = false) (hmem : edgeKey e ∉ s.edges) :
    (clickEdge cfg s (some e)).edges = insert (edgeKey e) s.edges := by
  rw [clickEdge_some hgo, if_neg hmem]
  split_ifs with h1 h2 <;> rfl

/-- After a completing move the invariant fields other than the game-over
flag hold: the new boxes map matches completeness, and the score sum and
length bookkeeping is preserved. -/
lemma moveResult_core {cfg : Config} {s : GameState} {e : Edge}
    (hInv : Inv cfg s) (he : e ∈ legalEdgeFinset cfg.rows cfg.cols)
    (hmem : edgeKey e ∉ s.edges)
    (hEleg : s.edges ⊆ legalKeys cfg.rows cfg.cols) :
    (∀ b : ℕ × ℕ, mapHas (moveResult cfg s e).boxes b = true ↔
      cellKeys b ⊆ insert (edgeKey e) s.edges) ∧
    (moveResult cfg s e).scores.sum = (moveResult cfg s e).boxes.length ∧
    (moveResult cfg s e).scores.length = cfg.players.length := by
  have hfresh_boxes : ∀ b ∈ checkForCompletedBoxes cfg e
      (insert (edgeKey e) s.edges), mapHas s.boxes b = false := by
    intro b hb
    cases h : mapHas s.boxes b with
    | false => rfl
    | true =>
      exact absurd (hInv.box_iff b |>.1 h)
        (completed_not_complete_before he hmem hb)
  have hnd := completed_nodup (E := insert (edgeKey e) s.edges) he
  refine ⟨?_, ?_, ?_⟩
  · intro b
    show mapHas ((completedFold s.currentPlayer
      (checkForCompletedBoxes cfg e (insert (edgeKey e) s.edges))
      s.boxes s.scores).1) b = true ↔ _
    rw [completedFold_eq]
    show mapHas (List.foldl (fun m b => mapSet m b s.currentPlayer) s.boxes
      (checkForCompletedBoxes cfg e (insert (edgeKey e) s.edges))) b = true ↔ _
    rw [mapHas_foldl, hInv.box_iff b]
    exact completed_box_iff he hmem hEleg
  · show ((completedFold s.currentPlayer
      (checkForCompletedBoxes cfg e (insert (edgeKey e) s.edges))
      s.boxes s.scores).2).sum = ((completedFold s.currentPlayer
      (checkForCompletedBoxes cfg e (insert (edgeKey e) s.edges))
      s.boxes s.scores).1).length
    rw [completedFold_eq]
    show (List.foldl (fun l _ => bump l s.currentPlayer) s.scores
      (checkForCompletedBoxes cfg e (insert (edgeKey e) s.edges))).sum =
      (List.foldl (fun m b => mapSet m b s.currentPlayer) s.boxes
      (checkForCompletedBoxes cfg e (insert (edgeKey e) s.edges))).length
    rw [foldl_bump_sum (by rw [hInv.scores_len]; exact hInv.cp_lt),
      length_foldl_mapSet hnd hfresh_boxes, hInv.score_sum]
  · show ((completedFold s.currentPlayer
      (checkForCompletedBoxes cfg e (insert (edgeKey e) s.edges))
      s.boxes s.scores).2).length = cfg.players.length
    rw [completedFold_eq]
    show (List.foldl (fun l _ => bump l s.currentPlayer) s.scores
      (checkForCompletedBoxes cfg e (insert (edgeKey e) s.edges))).length = _
    rw [foldl_bump_length]
    exact hInv.scores_len

lemma inv_clickEdge {cfg : Config} {s : GameState} {eo : Option Edge}
    (h2r : 2 ≤ cfg.rows) (h2c : 2 ≤ cfg.cols) (hp : cfg.players ≠ [])
    (hleg : LegalOpt cfg eo) (hInv : Inv cfg s) :
    Inv cfg (clickEdge cfg s eo) := by
  cases eo with
  | none =>
    cases hgo : s.gameOver with
    | true =>
      rw [clickEdge_gameOver hgo]
      exact hInv
    | false =>
      rw [clickEdge_none hgo]
      exact hInv
  | some e =>
    cases hgo : s.gameOver with
    | true =>
      rw [clickEdge_gameOver hgo]
      exact hInv
    | false =>
      rw [clickEdge_some hgo]
      have hEleg := hInv.edges_legal
      have he : e ∈ legalEdgeFinset cfg.rows cfg.cols := hleg
      have hkey : edgeKey e ∈ legalKeys cfg.rows cfg.cols :=
        Finset.mem_image_of_mem edgeKey he
      have hsubset : insert (edgeKey e) s.edges ⊆ legalKeys cfg.rows cfg.cols :=
        Finset.insert_subset hkey hEleg
      split_ifs with hmem hempty hover
      · exact hInv
      · -- no boxes completed: only the player index advances
        have hcard : (insert (edgeKey e) s.edges).card = s.edges.card + 1 :=
          Finset.card_insert_of_not_mem hmem
        refine ⟨hsubset, ?_, hInv.score_sum, ?_, hInv.scores_len, ?_⟩
        · intro b
          show mapHas s.boxes b = true ↔ cellKeys b ⊆ insert (edgeKey e) s.edges
          rw [← completed_box_iff he hmem hEleg, hempty]
          simp only [List.mem_nil_iff, false_or]
          exact hInv.box_iff b
        · show s.gameOver = true ↔
            (insert (edgeKey e) s.edges).card = totalPossibleEdges cfg.rows cfg.cols
          rw [hgo]
          constructor
          · intro h
            exact absurd h Bool.false_ne_true
          · intro h
            exfalso
            have hfull : ∀ k ∈ legalKeys cfg.rows cfg.cols,
                k ∈ insert (edgeKey e) s.edges := by
              intro k hk
              have heq : insert (edgeKey e) s.edges = legalKeys cfg.rows cfg.cols :=
                Finset.eq_of_subset_of_card_le hsubset
                  (by rw [card_legalKeys]; omega)
              rw [heq]
              exact hk
            exact completed_ne_nil_of_full h2r h2c he hfull hempty
        · show (s.currentPlayer + 1) % cfg.players.length < cfg.players.length
          exact Nat.mod_lt _ (List.length_pos.2 hp)
      · -- completed boxes and the move fills the board: endGame fires
        have hcore := moveResult_core (e := e) hInv he hmem hEleg
        refine ⟨hsubset, hcore.1, hcore.2.1, ?_, hcore.2.2, hInv.cp_lt⟩
        constructor
        · intro
          have h1 : totalPossibleEdges cfg.rows cfg.cols ≤
              (insert (edgeKey e) s.edges).card := hover
          have hcard_le : (insert (edgeKey e) s.edges).card ≤
              totalPossibleEdges cfg.rows cfg.cols := by
            rw [← card_legalKeys cfg.rows cfg.cols]
            exact Finset.card_le_card hsubset
          show (insert (edgeKey e) s.edges).card = _
          omega
        · intro
          rfl
      · -- completed boxes but the board is not yet full
        have hcore := moveResult_core (e := e) hInv he hmem hEleg
        refine ⟨hsubset, hcore.1, hcore.2.1, ?_, hcore.2.2, hInv.cp_lt⟩
        show s.gameOver = true ↔ (insert (edgeKey e) s.edges).card = _
        rw [hgo]
        constructor
        · intro h
          exact absurd h Bool.false_ne_true
        · intro h
          exfalso
          have h1 : ¬ totalPossibleEdges cfg.rows cfg.cols ≤
              (insert (edgeKey e) s.edges).card := hover
          omega

lemma inv_mouseMoveEdge {cfg : Config} {s : GameState} (eo : Option Edge)
    (hInv : Inv cfg s) : Inv cfg (mouseMoveEdge cfg s eo) := by
  unfold mouseMoveEdge
  split_ifs with hgo
  · exact hInv
  · cases eo with
    | none => exact ⟨hInv.edges_legal, hInv.box_iff, hInv.score_sum,
        hInv.over_iff, hInv.scores_len, hInv.cp_lt⟩
    | some e =>
      show Inv cfg (if edgeKey e ∈ s.edges then { s with highlightedEdge := none }
        else { s with highlightedEdge := some e })
      split_ifs with hmem <;>
        exact ⟨hInv.edges_legal, hInv.box_iff, hInv.score_sum,
          hInv.over_iff, hInv.scores_len, hInv.cp_lt⟩


lemma resetGame_eq_initState (cfg : Config) (s : GameState) :
    resetGame cfg s = initState cfg := rfl

/-- Every reachable state satisfies the invariant. -/
lemma inv_reachable {cfg : Config} {s : GameState} (h2r : 2 ≤ cfg.rows)
    (h2c : 2 ≤ cfg.cols) (hp : cfg.players ≠ []) (hs : Reachable cfg s) :
    Inv cfg s := by
  induction hs with
  | init => exact inv_initState h2r h2c hp
  | click he _ ih => exact inv_clickEdge h2r h2c hp he ih
  | mousemove eo _ ih => exact inv_mouseMoveEdge eo ih
  | reset _ _ => rw [resetGame_eq_initState]; exact inv_initState h2r h2c hp

/-! ### Frame and persistence lemmas -/

/-- The mouse-move handler can change only the highlighted edge. -/
lemma mouseMoveEdge_frame (cfg : Config) (s : GameState) (eo : Option Edge) :
    (mouseMoveEdge cfg s eo).edges = s.edges ∧
    (mouseMoveEdge cfg s eo).boxes = s.boxes ∧
    (mouseMoveEdge cfg s eo).scores = s.scores ∧
    (mouseMoveEdge cfg s eo).currentPlayer = s.currentPlayer ∧
    (mouseMoveEdge cfg s eo).gameOver = s.gameOver := by
  cases eo with
  | none => cases hgo : s.gameOver <;> simp [mouseMoveEdge, hgo]
  | some e =>
    cases hgo : s.gameOver with
    | false =>
      by_cases hmem : edgeKey e ∈ s.edges <;> simp [mouseMoveEdge, hgo, hmem]
    | true => simp [mouseMoveEdge, hgo]

/-- A box's owner entry survives any click: completed boxes are always
fresh keys, so `Map.set` never touches an existing entry. -/
lemma mapGet_clickEdge {cfg : Config} {s : GameState} {eo : Option Edge}
    {b : ℕ × ℕ} {p : ℕ} (hleg : LegalOpt cfg eo) (hInv : Inv cfg s)
    (h : mapGet s.boxes b = some p) :
    mapGet (clickEdge cfg s eo).boxes b = some p := by
  cases eo with
  | none =>
    cases hgo : s.gameOver with
    | true => rw [clickEdge_gameOver hgo]; exact h
    | false => rw [clickEdge_none hgo]; exact h
  | some e =>
    cases hgo : s.gameOver with
    | true => rw [clickEdge_gameOver hgo]; exact h
    | false =>
      rw [clickEdge_some hgo]
      split_ifs with hmem hempty hover
      · exact h
      · exact h
      all_goals {
        have he : e ∈ legalEdgeFinset cfg.rows cfg.cols := hleg
        have hnotin : b ∉ checkForCompletedBoxes cfg e
            (insert (edgeKey e) s.edges) := by
          intro hb
          have hhas : mapHas s.boxes b = true :=
            mapGet_isSome_iff_mapHas.1 (by rw [h]; rfl)
          exact completed_not_complete_before he hmem hb
            (hInv.box_iff b |>.1 hhas)
        show mapGet ((completedFold s.currentPlayer
          (checkForCompletedBoxes cfg e (insert (edgeKey e) s.edges))
          s.boxes s.scores).1) b = some p
        rw [completedFold_eq]
        show mapGet (List.foldl (fun m b => mapSet m b s.currentPlayer) s.boxes
          (checkForCompletedBoxes cfg e (insert (edgeKey e) s.edges))) b = some p
        rw [mapGet_foldl_not_mem hnotin]
        exact h
      }

lemma clickReach_reachable {cfg : Config} {s t : GameState}
    (hs : Reachable cfg s) (h : ClickReach cfg s t) : Reachable cfg t := by
  induction h with
  | refl => exact hs
  | click he _ ih => exact Reachable.click he ih
  | mousemove eo _ ih => exact Reachable.mousemove eo ih

/-- Ownership persistence along any run of clicks and hovers. -/
lemma mapGet_clickReach {cfg : Config} {s t : GameState}
    (h2r : 2 ≤ cfg.rows) (h2c : 2 ≤ cfg.cols) (hp : cfg.players ≠ [])
    (hs : Reachable cfg s) (h : ClickReach cfg s t) {b : ℕ × ℕ} {p : ℕ}
    (hb : mapGet s.boxes b = some p) : mapGet t.boxes b = some p := by
  induction h with
  | refl => exact hb
  | click he hcr ih =>
    exact mapGet_clickEdge he
      (inv_reachable h2r h2c hp (clickReach_reachable hs hcr)) ih
  | mousemove eo hcr ih =>
    rw [(mouseMoveEdge_frame cfg _ eo).2.1]
    exact ih

/-! ### The winner scan of `endGame`

Spec-side definitions (from the winner-computation sentence of the spec):
the maximal score, the set of players attaining it, the first player
attaining it, and the number of players attaining it. -/

/-- Modelled from the spec: `maxScore = max over players of PlayerScore`. -/
def specMax (l : List ℕ) : ℕ := l.foldl max 0

/-- Modelled from the spec: `winners = { p : PlayerScore[p] == maxScore }`. -/
def specWinners (l : List ℕ) : Finset ℕ :=
  (Finset.range l.length).filter (fun i => l.getD i 0 = specMax l)

/-- Number of occurrences of `v` in `l`. -/
def countEq (v : ℕ) : List ℕ → ℕ
  | [] => 0
  | x :: xs => countEq v xs + (if x = v then 1 else 0)

/-- Index of the first occurrence of `v` in `l`. -/
def firstIdx (v : ℕ) : List ℕ → ℕ
  | [] => 0
  | x :: xs => if x = v then 0 else firstIdx v xs + 1

lemma foldl_max_eq (a : ℕ) (l : List ℕ) :
    l.foldl max a = max a (l.foldl max 0) := by
  induction l generalizing a with
  | nil => simp
  | cons x xs ih =>
    rw [List.foldl_cons, List.foldl_cons, ih (max a x), ih (max 0 x),
      Nat.zero_max, max_assoc]

lemma specMax_cons (x : ℕ) (xs : List ℕ) :
    specMax (x :: xs) = max x (specMax xs) := by
  rw [specMax, specMax, List.foldl_cons, Nat.zero_max, foldl_max_eq]

lemma specMax_mem {l : List ℕ} (h : l ≠ []) : specMax l ∈ l := by
  induction l with
  | nil => exact absurd rfl h
  | cons x xs ih =>
    by_cases hxs : xs = []
    · subst hxs
      simp [specMax]
    · rw [specMax_cons]
      rcases max_choice x (specMax xs) with hm | hm
      · rw [hm]
        exact List.mem_cons_self _ _
      · rw [hm]
        exact List.mem_cons_of_mem _ (ih hxs)

lemma le_specMax {l : List ℕ} {v : ℕ} (h : v ∈ l) : v ≤ specMax l := by
  induction l with
  | nil => simp at h
  | cons x xs ih =>
    rw [specMax_cons]
    rcases List.mem_cons.1 h with rfl | h
    · exact le_max_left _ _
    · exact le_trans (ih h) (le_max_right _ _)

lemma countEq_pos_of_mem {l : List ℕ} {v : ℕ} (h : v ∈ l) :
    1 ≤ countEq v l := by
  induction l with
  | nil => simp at h
  | cons x xs ih =>
    rcases List.mem_cons.1 h with rfl | h
    · simp [countEq]
    · rw [countEq]
      have := ih h
      omega

lemma countEq_eq_zero_of_not_mem {l : List ℕ} {v : ℕ} (h : v ∉ l) :
    countEq v l = 0 := by
  induction l with
  | nil => rfl
  | cons x xs ih =>
    rw [countEq, ih (fun hm => h (List.mem_cons_of_mem _ hm)),
      if_neg (fun hx => h (by rw [← hx]; exact List.mem_cons_self x xs))]

lemma firstIdx_lt_length {l : List ℕ} {v : ℕ} (h : v ∈ l) :
    firstIdx v l < l.length := by
  induction l with
  | nil => simp at h
  | cons x xs ih =>
    rw [firstIdx, List.length_cons]
    split_ifs with hx
    · omega
    · have hm : v ∈ xs := by
        rcases List.mem_cons.1 h with rfl | hm
        · exact absurd rfl hx
        · exact hm
      have := ih hm
      omega

lemma getD_firstIdx {l : List ℕ} {v : ℕ} (h : v ∈ l) :
    l.getD (firstIdx v l) 0 = v := by
  induction l with
  | nil => simp at h
  | cons x xs ih =>
    rw [firstIdx]
    split_ifs with hx
    · rw [List.getD_cons_zero]
      exact hx
    · rw [List.getD_cons_succ]
      apply ih
      rcases List.mem_cons.1 h with rfl | hm
      · exact absurd rfl hx
      · exact hm

lemma card_specWinners (l : List ℕ) :
    (specWinners l).card = countEq (specMax l) l := by
  rw [specWinners]
  generalize specMax l = v
  induction l with
  | nil => simp [countEq]
  | cons x xs ih =>
    rw [List.length_cons, Finset.card_filter, Finset.sum_range_succ']
    simp only [List.getD_cons_succ, List.getD_cons_zero]
    rw [← Finset.card_filter, ih, countEq]

lemma endStep_gt {acc : ℤ × ℤ × Bool} {p : ℕ × ℕ} (h : acc.1 < (p.2 : ℤ)) :
    endStep acc p = ((p.2 : ℤ), (p.1 : ℤ), false) := by
  rw [endStep, if_pos h]

lemma endStep_eq {acc : ℤ × ℤ × Bool} {p : ℕ × ℕ} (h : (p.2 : ℤ) = acc.1) :
    endStep acc p = (acc.1, acc.2.1, true) := by
  rw [endStep, if_neg (by omega), if_pos h]

lemma endStep_lt {acc : ℤ × ℤ × Bool} {p : ℕ × ℕ} (h : (p.2 : ℤ) < acc.1) :
    endStep acc p = acc := by
  rw [endStep, if_neg (by omega), if_neg (by omega)]

/-- Full characterization of the `endGame` scan: starting the loop at
index `k` with accumulator `(m, w, t)` on a nonempty suffix `l`. -/
lemma endFold_spec (l : List ℕ) : ∀ (k : ℕ) (m w : ℤ) (t : Bool), l ≠ [] →
    (List.enumFrom k l).foldl endStep (m, w, t) =
      if m < (specMax l : ℤ) then
        ((specMax l : ℤ), ((k + firstIdx (specMax l) l : ℕ) : ℤ),
          decide (2 ≤ countEq (specMax l) l))
      else if (specMax l : ℤ) = m then (m, w, true)
      else (m, w, t) := by
  induction l with
  | nil =>
    intro k m w t h
    exact absurd rfl h
  | cons v xs ih =>
    intro k m w t _
    rw [show List.enumFrom k (v :: xs) = (k, v) :: List.enumFrom (k + 1) xs
        from rfl, List.foldl_cons]
    by_cases hxs : xs = []
    · subst hxs
      rw [show List.enumFrom (k + 1) ([] : List ℕ) = [] from rfl,
        List.foldl_nil]
      have hmax : specMax [v] = v := by simp [specMax]
      have hfi : firstIdx (specMax [v]) [v] = 0 := by
        rw [hmax]
        simp [firstIdx]
      have hcnt : countEq (specMax [v]) [v] = 1 := by
        rw [hmax]
        simp [countEq]
      rcases lt_trichotomy m (v : ℤ) with hv | hv | hv
      · rw [endStep_gt (show ((m, w, t) : ℤ × ℤ × Bool).1 < (((k, v) : ℕ × ℕ).2 : ℤ) from hv),
          if_pos (show m < ((specMax [v] : ℕ) : ℤ) by rw [hmax]; omega),
          hfi, hcnt, hmax, decide_eq_false (by omega), Nat.add_zero]
      · rw [endStep_eq (show (((k, v) : ℕ × ℕ).2 : ℤ) = ((m, w, t) : ℤ × ℤ × Bool).1 from hv.symm),
          if_neg (show ¬ m < ((specMax [v] : ℕ) : ℤ) by rw [hmax]; omega),
          if_pos (show ((specMax [v] : ℕ) : ℤ) = m by rw [hmax]; omega)]
      · rw [endStep_lt (show (((k, v) : ℕ × ℕ).2 : ℤ) < ((m, w, t) : ℤ × ℤ × Bool).1 from hv),
          if_neg (show ¬ m < ((specMax [v] : ℕ) : ℤ) by rw [hmax]; omega),
          if_neg (show ¬ ((specMax [v] : ℕ) : ℤ) = m by rw [hmax]; omega)]
    · have hMcons := specMax_cons v xs
      rcases lt_trichotomy m (v : ℤ) with hv | hv | hv
      · -- the head strictly improves the running max
        rw [endStep_gt (show ((m, w, t) : ℤ × ℤ × Bool).1 < (((k, v) : ℕ × ℕ).2 : ℤ) from hv),
          ih (k + 1) (v : ℤ) (k : ℤ) false hxs]
        rcases lt_trichotomy v (specMax xs) with hV | hV | hV
        · have hM : specMax (v :: xs) = specMax xs := by
            rw [hMcons]
            omega
          have hne : ¬ v = specMax xs := by omega
          rw [if_pos (show ((v : ℕ) : ℤ) < ((specMax xs : ℕ) : ℤ) by omega),
            if_pos (show m < ((specMax (v :: xs) : ℕ) : ℤ) by rw [hM]; omega),
            hM, firstIdx, if_neg hne, countEq, if_neg hne]
          simp only [Prod.mk.injEq, Nat.add_zero, Nat.cast_inj, true_and,
            and_true]
          omega
        · have hM : specMax (v :: xs) = v := by
            rw [hMcons]
            omega
          have hc1 : 1 ≤ countEq v xs := by
            rw [hV]
            exact countEq_pos_of_mem (specMax_mem hxs)
          rw [if_neg (show ¬ ((v : ℕ) : ℤ) < ((specMax xs : ℕ) : ℤ) by omega),
            if_pos (show ((specMax xs : ℕ) : ℤ) = ((v : ℕ) : ℤ) by omega),
            if_pos (show m < ((specMax (v :: xs) : ℕ) : ℤ) by rw [hM]; omega),
            hM, firstIdx, if_pos rfl, countEq, if_pos rfl,
            decide_eq_true (show 2 ≤ countEq v xs + 1 by omega), Nat.add_zero]
        · have hM : specMax (v :: xs) = v := by
            rw [hMcons]
            omega
          have hc0 : countEq v xs = 0 := by
            apply countEq_eq_zero_of_not_mem
            intro hm
            have := le_specMax hm
            omega
          rw [if_neg (show ¬ ((v : ℕ) : ℤ) < ((specMax xs : ℕ) : ℤ) by omega),
            if_neg (show ¬ ((specMax xs : ℕ) : ℤ) = ((v : ℕ) : ℤ) by omega),
            if_pos (show m < ((specMax (v :: xs) : ℕ) : ℤ) by rw [hM]; omega),
            hM, firstIdx, if_pos rfl, countEq, if_pos rfl,
            decide_eq_false (show ¬ 2 ≤ countEq v xs + 1 by omega),
            Nat.add_zero]
      · -- the head ties the running max
        rw [endStep_eq (show (((k, v) : ℕ × ℕ).2 : ℤ) = ((m, w, t) : ℤ × ℤ × Bool).1 from hv.symm),
          ih (k + 1) m w true hxs]
        rcases lt_trichotomy m ((specMax xs : ℕ) : ℤ) with hV | hV | hV
        · have hM : specMax (v :: xs) = specMax xs := by
            rw [hMcons]
            omega
          have hne : ¬ v = specMax xs := by omega
          rw [if_pos hV,
            if_pos (show m < ((specMax (v :: xs) : ℕ) : ℤ) by rw [hM]; omega),
            hM, firstIdx, if_neg hne, countEq, if_neg hne]
          simp only [Prod.mk.injEq, Nat.add_zero, Nat.cast_inj, true_and,
            and_true]
          omega
        · have hM : specMax (v :: xs) = specMax xs := by
            rw [hMcons]
            omega
          rw [if_neg (by omega), if_pos hV.symm,
            if_neg (show ¬ m < ((specMax (v :: xs) : ℕ) : ℤ) by rw [hM]; omega),
            if_pos (show ((specMax (v :: xs) : ℕ) : ℤ) = m by rw [hM]; omega)]
        · have hM : specMax (v :: xs) = v := by
            rw [hMcons]
            omega
          rw [if_neg (by omega), if_neg (by omega),
            if_neg (show ¬ m < ((specMax (v :: xs) : ℕ) : ℤ) by rw [hM]; omega),
            if_pos (show ((specMax (v :: xs) : ℕ) : ℤ) = m by rw [hM]; omega)]
      · -- the head is below the running max
        rw [endStep_lt (show (((k, v) : ℕ × ℕ).2 : ℤ) < ((m, w, t) : ℤ × ℤ × Bool).1 from hv),
          ih (k + 1) m w t hxs]
        rcases lt_trichotomy m ((specMax xs : ℕ) : ℤ) with hV | hV | hV
        · have hM : specMax (v :: xs) = specMax xs := by
            rw [hMcons]
            omega
          have hne : ¬ v = specMax xs := by omega
          rw [if_pos hV,
            if_pos (show m < ((specMax (v :: xs) : ℕ) : ℤ) by rw [hM]; omega),
            hM, firstIdx, if_neg hne, countEq, if_neg hne]
          simp only [Prod.mk.injEq, Nat.add_zero, Nat.cast_inj, true_and,
            and_true]
          omega
        · have hM : specMax (v :: xs) = specMax xs := by
            rw [hMcons]
            omega
          rw [if_neg (by omega), if_pos hV.symm,
            if_neg (show ¬ m < ((specMax (v :: xs) : ℕ) : ℤ) by rw [hM]; omega),
            if_pos (show ((specMax (v :: xs) : ℕ) : ℤ) = m by rw [hM]; omega)]
        · rw [if_neg (by omega), if_neg (by omega),
            if_neg (show ¬ m < ((specMax (v :: xs) : ℕ) : ℤ) by
              rw [hMcons]; omega),
            if_neg (show ¬ ((specMax (v :: xs) : ℕ) : ℤ) = m by
              rw [hMcons]; omega)]

/-! ### Spec-modelled configuration validity (§6/§7 of the spec) -/

/-- Modelled from the spec: the configurations §6 permits (`rows ≥ 2`,
`cols ≥ 2`, player count ≥ 2); the spec claims a `ConfigurationError` is
raised at session creation for any other configuration. -/
def specValidConfig (cfg : Config) : Prop :=
  2 ≤ cfg.rows ∧ 2 ≤ cfg.cols ∧ 2 ≤ cfg.players.length

instance (cfg : Config) : Decidable (specValidConfig cfg) :=
  inferInstanceAs (Decidable (_ ∧ _ ∧ _))

/-! ### The claims -/

/-- C1: In every reachable state the `gameOver` flag is true exactly when
the number of drawn edges equals `(rows-1)*cols + rows*(cols-1)`, and
never earlier; moreover a successful move on a legal fresh edge that
brings the drawn-edge count to the total always completes at least one
box, so the game-over test on the completed-box branch fires on every
board-filling move. -/
theorem C1_gameOver_iff_board_full (cfg : Config) (s : GameState)
    (h2r : 2 ≤ cfg.rows) (h2c : 2 ≤ cfg.cols) (hp : cfg.players ≠ [])
    (hs : Reachable cfg s) :
    (s.gameOver = true ↔ s.edges.card = totalPossibleEdges cfg.rows cfg.cols) ∧
    (∀ e ∈ legalEdgeFinset cfg.rows cfg.cols, edgeKey e ∉ s.edges →
      (insert (edgeKey e) s.edges).card = totalPossibleEdges cfg.rows cfg.cols →
      checkForCompletedBoxes cfg e (insert (edgeKey e) s.edges) ≠ []) := by
  have hInv := inv_reachable h2r h2c hp hs
  refine ⟨hInv.over_iff, ?_⟩
  intro e he hmem hcard
  apply completed_ne_nil_of_full h2r h2c he
  intro k hk
  have hsub : insert (edgeKey e) s.edges ⊆ legalKeys cfg.rows cfg.cols :=
    Finset.insert_subset (Finset.mem_image_of_mem edgeKey he) hInv.edges_legal
  have heq : insert (edgeKey e) s.edges = legalKeys cfg.rows cfg.cols :=
    Finset.eq_of_subset_of_card_le hsub (by rw [card_legalKeys]; omega)
  rw [heq]
  exact hk

theorem C1_witness :
    ((initState config).gameOver = true ↔
      (initState config).edges.card =
        totalPossibleEdges config.rows config.cols) ∧
    (∀ e ∈ legalEdgeFinset config.rows config.cols,
      edgeKey e ∉ (initState config).edges →
      (insert (edgeKey e) (initState config).edges).card =
        totalPossibleEdges config.rows config.cols →
      checkForCompletedBoxes config e
        (insert (edgeKey e) (initState config).edges) ≠ []) :=
  C1_gameOver_iff_board_full config (initState config) (by decide) (by decide)
    (by decide) Reachable.init

/-- C2: In every reachable state a box is in the owners map iff all 4 of
its bounding edges are drawn; and an owner entry, once present, survives
every further click or hover for the rest of the game. -/
theorem C2_owned_iff_complete (cfg : Config) (s t : GameState)
    (h2r : 2 ≤ cfg.rows) (h2c : 2 ≤ cfg.cols) (hp : cfg.players ≠ [])
    (hs : Reachable cfg s) (hst : ClickReach cfg s t) :
    (∀ b : ℕ × ℕ, mapHas s.boxes b = true ↔ cellKeys b ⊆ s.edges) ∧
    (∀ (b : ℕ × ℕ) (p : ℕ), mapGet s.boxes b = some p →
      mapGet t.boxes b = some p) :=
  ⟨(inv_reachable h2r h2c hp hs).box_iff,
   fun _ _ hb => mapGet_clickReach h2r h2c hp hs hst hb⟩

theorem C2_witness :
    (∀ b : ℕ × ℕ, mapHas (initState config).boxes b = true ↔
      cellKeys b ⊆ (initState config).edges) ∧
    (∀ (b : ℕ × ℕ) (p : ℕ), mapGet (initState config).boxes b = some p →
      mapGet (initState config).boxes b = some p) :=
  C2_owned_iff_complete config (initState config) (initState config)
    (by decide) (by decide) (by decide) Reachable.init ClickReach.refl

/-- C3: A successful move (legal fresh edge, game in progress) advances
`currentPlayer` by exactly one modulo the player count when it completes
no box, and leaves `currentPlayer` unchanged when it completes at least
one box (also on the game-ending move). -/
theorem C3_turn_advance (cfg : Config) (s : GameState) (e : Edge)
    (hgo : s.gameOver = false)
    (hleg : e ∈ legalEdgeFinset cfg.rows cfg.cols)
    (hmem : edgeKey e ∉ s.edges) :
    (checkForCompletedBoxes cfg e (insert (edgeKey e) s.edges) = [] →
      (clickEdge cfg s (some e)).currentPlayer =
        (s.currentPlayer + 1) % cfg.players.length) ∧
    (checkForCompletedBoxes cfg e (insert (edgeKey e) s.edges) ≠ [] →
      (clickEdge cfg s (some e)).currentPlayer = s.currentPlayer) := by
  rw [clickEdge_some hgo, if_neg hmem]
  constructor
  · intro h
    rw [if_pos h]
  · intro h
    rw [if_neg h]
    split_ifs with hover
    · rfl
    · rfl

theorem C3_witness :
    (checkForCompletedBoxes config ⟨0, 0, 0, 1, true⟩
        (insert (edgeKey ⟨0, 0, 0, 1, true⟩) (initState config).edges) = [] →
      (clickEdge config (initState config) (some ⟨0, 0, 0, 1, true⟩)).currentPlayer =
        ((initState config).currentPlayer + 1) % config.players.length) ∧
    (checkForCompletedBoxes config ⟨0, 0, 0, 1, true⟩
        (insert (edgeKey ⟨0, 0, 0, 1, true⟩) (initState config).edges) ≠ [] →
      (clickEdge config (initState config) (some ⟨0, 0, 0, 1, true⟩)).currentPlayer =
        (initState config).currentPlayer) :=
  C3_turn_advance config (initState config) ⟨0, 0, 0, 1, true⟩ (by decide)
    (by decide) (by decide)

/-- C4 as written is false: `endGame` retains only `(maxScore, winner,
isTie)`; two score vectors with different tied sets produce identical
results, so the tied set is not retained. -/
theorem C4_counterexample :
    endGameCalc [1, 1, 0] = endGameCalc [1, 0, 1] ∧
    specWinners [1, 1, 0] ≠ specWinners [1, 0, 1] := by
  constructor
  · decide
  · decide

/-- C4 amended: the winner scan computes `maxScore = max over players`,
reports the tie flag true exactly when at least two players attain it,
and when exactly one player attains it reports that player as the
winner (with `isTie = false` and `maxScore` their score). -/
theorem C4_winner_computation (scores : List ℕ) (h : scores ≠ []) :
    (endGameCalc scores).1 = (specMax scores : ℤ) ∧
    ((endGameCalc scores).2.2 = true ↔ 2 ≤ (specWinners scores).card) ∧
    ((specWinners scores).card = 1 →
      ∀ i ∈ specWinners scores, (endGameCalc scores).2.1 = (i : ℤ) ∧
        (endGameCalc scores).2.2 = false) := by
  have hM : specMax scores ∈ scores := specMax_mem h
  have hend : endGameCalc scores =
      ((specMax scores : ℤ),
        ((0 + firstIdx (specMax scores) scores : ℕ) : ℤ),
        decide (2 ≤ countEq (specMax scores) scores)) := by
    rw [endGameCalc, show scores.enum = List.enumFrom 0 scores from rfl,
      endFold_spec scores 0 (-1) (-1) false h,
      if_pos (show (-1 : ℤ) < ((specMax scores : ℕ) : ℤ) by omega)]
  rw [hend]
  refine ⟨rfl, ?_, ?_⟩
  · rw [card_specWinners]
    exact decide_eq_true_iff
  · intro hcard i hi
    have hcnt : countEq (specMax scores) scores = 1 := by
      rw [← card_specWinners]
      exact hcard
    constructor
    · have hfw : firstIdx (specMax scores) scores ∈ specWinners scores :=
        Finset.mem_filter.2 ⟨Finset.mem_range.2 (firstIdx_lt_length hM),
          getD_firstIdx hM⟩
      obtain ⟨a, ha⟩ := Finset.card_eq_one.1 hcard
      rw [ha, Finset.mem_singleton] at hi hfw
      rw [Nat.zero_add, hfw, ← hi]
    · rw [decide_eq_false (show ¬ 2 ≤ countEq (specMax scores) scores by
        omega)]

theorem C4_winner_computation_witness :
    (endGameCalc [1, 2]).1 = (specMax [1, 2] : ℤ) ∧
    ((endGameCalc [1, 2]).2.2 = true ↔ 2 ≤ (specWinners [1, 2]).card) ∧
    ((specWinners [1, 2]).card = 1 →
      ∀ i ∈ specWinners [1, 2], (endGameCalc [1, 2]).2.1 = (i : ℤ) ∧
        (endGameCalc [1, 2]).2.2 = false) :=
  C4_winner_computation [1, 2] (by decide)

/-- C5: Rejected moves are non-mutating no-ops: any click while the game
is over returns the state unchanged, clicking an already-drawn edge
returns the state unchanged, and clicking the same edge twice in a row is
the same as clicking it once (in particular the drawn-edge count is
unchanged by the second attempt). -/
theorem C5_rejected_moves (cfg : Config) (s : GameState) :
    (∀ eo : Option Edge, s.gameOver = true → clickEdge cfg s eo = s) ∧
    (∀ e : Edge, edgeKey e ∈ s.edges → clickEdge cfg s (some e) = s) ∧
    (∀ e : Edge, clickEdge cfg (clickEdge cfg s (some e)) (some e) =
      clickEdge cfg s (some e)) ∧
    (∀ e : Edge,
      (clickEdge cfg (clickEdge cfg s (some e)) (some e)).edges.card =
      (clickEdge cfg s (some e)).edges.card) := by
  have h2 : ∀ e : Edge, edgeKey e ∈ s.edges → clickEdge cfg s (some e) = s := by
    intro e hmem
    cases hgo : s.gameOver with
    | true => exact clickEdge_gameOver hgo
    | false => rw [clickEdge_some hgo, if_pos hmem]
  have h3 : ∀ e : Edge, clickEdge cfg (clickEdge cfg s (some e)) (some e) =
      clickEdge cfg s (some e) := by
    intro e
    cases hgo : s.gameOver with
    | true => rw [clickEdge_gameOver hgo, clickEdge_gameOver hgo]
    | false =>
      by_cases hmem : edgeKey e ∈ s.edges
      · rw [h2 e hmem, h2 e hmem]
      · have hedges : (clickEdge cfg s (some e)).edges =
            insert (edgeKey e) s.edges := clickEdge_edges_fresh hgo hmem
        cases hgo1 : (clickEdge cfg s (some e)).gameOver with
        | true => exact clickEdge_gameOver hgo1
        | false =>
          rw [clickEdge_some hgo1,
            if_pos (by rw [hedges]; exact Finset.mem_insert_self _ _)]
  exact ⟨fun _ hgo => clickEdge_gameOver hgo, h2, h3, fun e => by rw [h3 e]⟩

theorem C5_witness :
    clickEdge config
      ⟨0, [0, 0], ∅, [], none, true⟩ none = ⟨0, [0, 0], ∅, [], none, true⟩ :=
  (C5_rejected_moves config ⟨0, [0, 0], ∅, [], none, true⟩).1 none rfl

/-- C6: In every reachable state the sum of all player scores equals the
number of entries of the owners map; reset returns both to zero/empty
together. -/
theorem C6_score_sum (cfg : Config) (s : GameState)
    (h2r : 2 ≤ cfg.rows) (h2c : 2 ≤ cfg.cols) (hp : cfg.players ≠ [])
    (hs : Reachable cfg s) :
    s.scores.sum = s.boxes.length ∧
    (resetGame cfg s).scores.sum = 0 ∧ (resetGame cfg s).boxes.length = 0 := by
  refine ⟨(inv_reachable h2r h2c hp hs).score_sum, ?_, rfl⟩
  show (List.replicate cfg.players.length 0).sum = 0
  simp

theorem C6_witness :
    (initState config).scores.sum = (initState config).boxes.length ∧
    (resetGame config (initState config)).scores.sum = 0 ∧
    (resetGame config (initState config)).boxes.length = 0 :=
  C6_score_sum config (initState config) (by decide) (by decide) (by decide)
    Reachable.init

/-- C7 as written is false: session creation performs no validation at
all.  At the concrete invalid configuration `rows = 1, cols = 1, no
players`, `initGame` constructs a normal in-progress session instead of
refusing with a `ConfigurationError`. -/
theorem C7_counterexample :
    ¬ specValidConfig ⟨1, 1, [], 90, 20, 30⟩ ∧
    initGame ⟨1, 1, [], 90, 20, 30⟩ = initState ⟨1, 1, [], 90, 20, 30⟩ ∧
    (initGame ⟨1, 1, [], 90, 20, 30⟩).gameOver = false := by
  refine ⟨?_, rfl, rfl⟩
  intro h
  exact absurd h.1 (by decide)

/-- C7 amended: session creation performs no validation: `initGame`
constructs the standard in-progress initial session for every
configuration, valid or not; no `ConfigurationError` path exists. -/
theorem C7_no_validation (cfg : Config) :
    initGame cfg = initState cfg ∧ (initGame cfg).gameOver = false :=
  ⟨rfl, rfl⟩

/-- C8: For all grids with at least 2×2 dots, the number of distinct
legal edges equals `(M-1)*N + M*(N-1)` — the same count the game-over
test compares against — the canonical keys of distinct legal edges are
distinct, and hit testing only ever produces edges of this universe. -/
theorem C8_legal_edge_count (M N : ℕ) (h2r : 2 ≤ M) (h2c : 2 ≤ N) :
    (legalKeys M N).card = (M - 1) * N + M * (N - 1) ∧
    (legalKeys M N).card = totalPossibleEdges M N ∧
    (legalEdgeFinset M N).card = (legalKeys M N).card ∧
    (∀ (cfg : Config) (x y : ℚ) (e : Edge), cfg.rows = M → cfg.cols = N →
      findNearestEdge cfg x y = some e → edgeKey e ∈ legalKeys M N) := by
  refine ⟨?_, card_legalKeys M N, (card_legalKeys_eq_edges M N).symm, ?_⟩
  · rw [card_legalKeys, totalPossibleEdges]
  · intro cfg x y e hr hc hfe
    have hleg := findNearestEdge_legal hfe
    rw [hr, hc] at hleg
    exact Finset.mem_image_of_mem edgeKey hleg

theorem C8_witness :
    (legalKeys 4 6).card = (4 - 1) * 6 + 4 * (6 - 1) ∧
    (legalKeys 4 6).card = totalPossibleEdges 4 6 ∧
    (legalEdgeFinset 4 6).card = (legalKeys 4 6).card ∧
    (∀ (cfg : Config) (x y : ℚ) (e : Edge), cfg.rows = 4 → cfg.cols = 6 →
      findNearestEdge cfg x y = some e → edgeKey e ∈ legalKeys 4 6) :=
  C8_legal_edge_count 4 6 (by decide) (by decide)

/-- C9: After any sequence of events, reset restores the game state to
its creation-time value: full equality with a freshly constructed
session. -/
theorem C9_reset_restores (cfg : Config) (s : GameState)
    (hs : Reachable cfg s) : resetGame cfg s = initState cfg := rfl

theorem C9_witness :
    resetGame config (initState config) = initState config :=
  C9_reset_restores config (initState config) Reachable.init

/-- C10: The mouse-move handler never mutates game state: for every
pixel position, the drawn edges, box owners, scores, current player and
game-over flag are unchanged (only `highlightedEdge` may change). -/
theorem C10_hover_frame (cfg : Config) (s : GameState) (x y : ℚ) :
    (handleMouseMove cfg s x y).edges = s.edges ∧
    (handleMouseMove cfg s x y).boxes = s.boxes ∧
    (handleMouseMove cfg s x y).scores = s.scores ∧
    (handleMouseMove cfg s x y).currentPlayer = s.currentPlayer ∧
    (handleMouseMove cfg s x y).gameOver = s.gameOver :=
  mouseMoveEdge_frame cfg s (findNearestEdge cfg x y)

end BoxN
